import Mathlib

/-
  Verification development for src/app/scripts/rename_with_index.py
  (local_media_manager).

  The script renames every file of an inbox directory to the convention
  YYYY-MM-DD_<event>_<increment>.<ext>, with a per-(event, year) counter
  persisted in a CSV file, auto-healed by scanning known destination
  directories when an entry is missing.

  Shallow embedding conventions used throughout this file:
  * Python strings are Lean `String`s (lists of unicode code points).
  * Python `int` is Lean `Int`; the nonnegative increments are `Nat`.
  * Directory listings are lists of `FSEntry` (a name plus an is-file flag);
    a filesystem subtree is a function from a path (list of components) to
    an optional listing (`none` models a missing directory).
  * The CSV index file content is modelled at the row level
    (`List (List String)`), the rows being exactly what `csv.writer` /
    `csv.reader` exchange; the csv module itself is an external collaborator.
  * All recursion is structural (fuel-based where the source loops), so every
    definition evaluates inside the kernel.
-/

/-! ## Decimal digits: model of Python str(int) and int(str) -/

/-- The decimal digit character for a value below ten (values ten and above
never arise from `n % 10`). -/
def digitChar : Nat → Char
  | 0 => '0' | 1 => '1' | 2 => '2' | 3 => '3' | 4 => '4'
  | 5 => '5' | 6 => '6' | 7 => '7' | 8 => '8' | _ => '9'

/-- Decimal digit list of `n`, most significant first, with explicit fuel so
that the recursion is structural.  With fuel above `n` this is the standard
decimal representation, as produced by Python `str` on a nonnegative int. -/
def decDigitsF : Nat → Nat → List Char
  | 0, _ => []
  | fuel + 1, n =>
    if n < 10 then [digitChar n]
    else decDigitsF fuel (n / 10) ++ [digitChar (n % 10)]

/-- Model of Python `str` on a nonnegative integer. -/
def natStr (n : Nat) : String := ⟨decDigitsF (n + 1) n⟩

/-- Numeric value of a digit character. -/
def digitVal (c : Char) : Nat := c.toNat - 48

/-- Value of a decimal digit list, most significant first. -/
def decimalVal (ds : List Char) : Nat :=
  ds.foldl (fun a c => 10 * a + digitVal c) 0

/-- Parses a nonempty all-digit character list; the digits branch of Python
`int(...)`. -/
def parseDigits (ds : List Char) : Option Nat :=
  match ds with
  | [] => none
  | _ :: _ => if ds.all Char.isDigit then some (decimalVal ds) else none

/-- Model of Python `str` on an arbitrary int. -/
def intStr (v : Int) : String :=
  if v < 0 then "-" ++ natStr v.natAbs else natStr v.toNat

/-- Model of Python `int(s)` for base 10: surrounding whitespace is stripped,
an optional single sign is accepted, the rest must be one or more decimal
digits.  (Python additionally accepts single underscores between digits;
that extension never arises from the writer and is not modelled.) -/
def parsePyInt (s : String) : Option Int :=
  let cs := ((s.data.dropWhile Char.isWhitespace).reverse.dropWhile
      Char.isWhitespace).reverse
  match cs with
  | [] => none
  | c :: ds =>
    if c = '-' then (parseDigits ds).map (fun n => -(n : Int))
    else if c = '+' then (parseDigits ds).map (fun n => (n : Int))
    else (parseDigits (c :: ds)).map (fun n => (n : Int))

/-! ## String utilities mirroring the Python operations used by the script -/

/-- Model of the Python slice `s[:n]` (on code points). -/
def takeStr (n : Nat) (s : String) : String := ⟨s.data.take n⟩

/-- Model of Python `str.lower` (codepoint-wise; the filenames involved are
ASCII, where `Char.toLower` agrees with Python). -/
def lowerStr (s : String) : String := ⟨s.data.map Char.toLower⟩

/-- Lexicographic strict order on code-point lists, as Python compares
strings. -/
def charListLt : List Char → List Char → Bool
  | [], [] => false
  | [], _ :: _ => true
  | _ :: _, [] => false
  | a :: as_, b :: bs => if a = b then charListLt as_ bs else decide (a < b)

/-- Python `a < b` on strings. -/
def strLtb (a b : String) : Bool := charListLt a.data b.data

/-- Python `a <= b` on strings. -/
def strLeb (a b : String) : Bool := strLtb a b || a == b

/-- Model of `pathlib.PurePath.stem` on a final path component: the name
without its suffix, where the suffix starts at the last dot, provided that
dot is neither the first nor the last character. -/
def pstem (name : String) : String :=
  let rev := name.data.reverse
  match rev.dropWhile (fun c => c != '.') with
  | [] => name
  | _ :: stemRev =>
    if stemRev.isEmpty then name
    else if (rev.takeWhile (fun c => c != '.')).isEmpty then name
    else ⟨stemRev.reverse⟩

/-- Model of `pathlib.PurePath.suffix` on a final path component. -/
def psuffix (name : String) : String :=
  let rev := name.data.reverse
  let sufRev := rev.takeWhile (fun c => c != '.')
  match rev.dropWhile (fun c => c != '.') with
  | [] => ""
  | _ :: stemRev =>
    if stemRev.isEmpty then ""
    else if sufRev.isEmpty then ""
    else ⟨'.' :: sufRev.reverse⟩

/-! ## The canonical stem pattern

The script recognises already-renamed files with
`STEM_RX = ^(?P<date>\d{4}-\d{2}-\d{2})_(?P<event>[^_]+)_(?P<inc>\d+)(?:_.+)?$`.
The parse below is the functional reading of that regex: a ten-character
digit/dash date, an underscore, a maximal nonempty underscore-free event run,
an underscore, a maximal nonempty digit run, and then either nothing or an
underscore followed by at least one character.  (The regex corner cases tied
to `$` and `.` around embedded newline characters are not modelled; no
claim depends on filenames containing newlines.) -/

structure StemInfo where
  date : String
  event : String
  inc : Nat
deriving DecidableEq, Repr

/-- The `\d{4}-\d{2}-\d{2}_` front of the pattern: returns the date and the
remainder after the separating underscore. -/
def parseDatePart : List Char → Option (String × List Char)
  | y1 :: y2 :: y3 :: y4 :: a :: m1 :: m2 :: b :: d1 :: d2 :: u :: rest =>
    if y1.isDigit && y2.isDigit && y3.isDigit && y4.isDigit && a == '-' &&
       m1.isDigit && m2.isDigit && b == '-' && d1.isDigit && d2.isDigit &&
       u == '_' then
      some (⟨[y1, y2, y3, y4, a, m1, m2, b, d1, d2]⟩, rest)
    else none
  | _ => none

/-- The `(?P<event>[^_]+)_` middle of the pattern: the maximal underscore-free
run, which must be nonempty and followed by an underscore. -/
def parseEventPart (cs : List Char) : Option (String × List Char) :=
  match cs.takeWhile (fun c => c != '_'), cs.dropWhile (fun c => c != '_') with
  | c :: ev, _ :: r3 => some (⟨c :: ev⟩, r3)
  | _, _ => none

/-- The `(?P<inc>\d+)(?:_.+)?$` tail of the pattern. -/
def parseIncPart (cs : List Char) : Option Nat :=
  match cs.takeWhile Char.isDigit, cs.dropWhile Char.isDigit with
  | [], _ => none
  | c :: ds, [] => some (decimalVal (c :: ds))
  | c :: ds, t :: tail =>
    if t == '_' && !tail.isEmpty then some (decimalVal (c :: ds)) else none

/-- Model of `parse_stem` (rename_with_index.py, lines 103-116): match the
stem against `STEM_RX` and return the date, event and integer increment. -/
def parse_stem (s : String) : Option StemInfo :=
  match parseDatePart s.data with
  | none => none
  | some (date, r1) =>
    match parseEventPart r1 with
    | none => none
    | some (ev, r2) =>
      match parseIncPart r2 with
      | none => none
      | some inc => some ⟨date, ev, inc⟩

/-! ## Filesystem model and the auto-healing scanner -/

/-- A directory entry: a name and whether it is a regular file (`p.is_file()`). -/
structure FSEntry where
  name : String
  isFile : Bool
deriving DecidableEq, Repr

/-- A listable directory tree: maps a path (list of components, relative to
the media root) to its immediate entries, or `none` when the directory does
not exist. -/
def DirTree : Type := List String → Option (List FSEntry)

/-- The fixed candidate directories inspected by `scan_max_existing`
(rename_with_index.py, lines 153-159): the four media-category folders of the
to-process tree plus the library root, each keyed by the event slug. -/
def candidateDirs (event : String) : List (List String) :=
  [["to process", "images", "compressé", event],
   ["to process", "images", "brute", event],
   ["to process", "video", event],
   ["to process", "audio", event],
   ["library", event]]

/-- One iteration of the scanner's inner loop (lines 164-174): skip non-files,
skip unparsable stems, keep only matches with the queried event and year, and
raise the running maximum. -/
def scanStep (event year : String) (m : Nat) (e : FSEntry) : Nat :=
  if e.isFile then
    match parse_stem (pstem e.name) with
    | none => m
    | some info =>
      if info.event = event then
        if takeStr 4 info.date = year then
          if m < info.inc then info.inc else m
        else m
      else m
  else m

/-- Model of `scan_max_existing` (lines 146-178): fold the scanner step over
the entries of each existing candidate directory, starting from 0; a missing
directory is skipped. -/
def scan_max_existing (fs : DirTree) (event year : String) : Nat :=
  (candidateDirs event).foldl
    (fun m d =>
      match fs d with
      | none => m
      | some entries => entries.foldl (scanStep event year) m) 0

/-! ## The CSV index store

The durable file is modelled at row level: `csv.writer`/`csv.reader` are the
external serialization collaborators and exchange exactly these rows; the
script's own logic is the conversion between rows and the in-memory dict,
including the `str`/`int` conversion of the counter (modelled by `intStr` /
`parsePyInt`). -/

abbrev IdxKey := String × String

/-- Lookup in the in-memory index (Python dict keyed by `(event, year)`). -/
def lookupIdx : List (IdxKey × Int) → IdxKey → Option Int
  | [], _ => none
  | (k, v) :: t, q => if k = q then some v else lookupIdx t q

/-- Assignment `idx[(event, year)] = v` on the association-list model of the
dict: replace in place if present, else append. -/
def insertIdx : List (IdxKey × Int) → IdxKey → Int → List (IdxKey × Int)
  | [], k, v => [(k, v)]
  | (k1, v1) :: t, k, v =>
    if k1 = k then (k1, v) :: t else (k1, v1) :: insertIdx t k v

/-- One row of `read_index`'s loop (lines 124-132): rows with fewer than
three fields are skipped, a counter field that `int` cannot parse is skipped,
otherwise the entry is stored. -/
def readRow (idx : List (IdxKey × Int)) (row : List String) : List (IdxKey × Int) :=
  match row with
  | ev :: yr :: li :: _ =>
    match parsePyInt li with
    | some v => insertIdx idx (ev, yr) v
    | none => idx
  | _ => idx

/-- Model of `read_index` (lines 119-133): a missing file yields the empty
mapping, otherwise the rows are folded into a dict. -/
def read_index (file : Option (List (List String))) : List (IdxKey × Int) :=
  match file with
  | none => []
  | some rows => rows.foldl readRow []

/-- Python's tuple order on `((event, year), last_inc)` items, used by
`sorted(idx.items())` in `write_index_atomic`. -/
def entryLeb (a b : IdxKey × Int) : Bool :=
  strLtb a.1.1 b.1.1 ||
    (a.1.1 == b.1.1 &&
      (strLtb a.1.2 b.1.2 || (a.1.2 == b.1.2 && decide (a.2 ≤ b.2))))

/-- The rows `write_index_atomic` serializes (lines 139-142): the mapping's
items in sorted order, each as `[event, year, str(last_inc), now]`. -/
def write_rows (idx : List (IdxKey × Int)) (now : String) : List (List String) :=
  (List.insertionSort (fun a b => entryLeb a b = true) idx).map
    (fun kv => [kv.1.1, kv.1.2, intStr kv.2, now])

/-- A path inside the media root: directory components plus a final name. -/
structure PPath where
  dir : List String
  base : String
deriving DecidableEq, Repr

/-- Model of `Path.with_suffix`: same directory, the stem with the new
suffix. -/
def withSuffix (p : PPath) (suf : String) : PPath := ⟨p.dir, pstem p.base ++ suf⟩

/-- The `STATE_CSV` path, relative to the media root. -/
def STATE_CSV_P : PPath := ⟨["app", "state"], "increment_index.csv"⟩

/-- The temporary path `tmp = path.with_suffix(".tmp")` of `write_index_atomic`. -/
def TMP_P : PPath := withSuffix STATE_CSV_P ".tmp"

/-- The durable-file state: contents (as rows) by path, `none` = absent. -/
abbrev FileMap := PPath → Option (List (List String))

/-- Point update of a `FileMap`. -/
def fupdate (fs : FileMap) (p : PPath) (v : Option (List (List String))) : FileMap :=
  fun q => if q = p then v else fs q

/-- Model of `write_index_atomic` (lines 135-143) when every step succeeds:
write the serialized rows to the temporary path, then `os.replace` the
temporary file over the final path (the replace removes the source and
installs its content at the destination in one step). -/
def write_index_atomic (fs : FileMap) (idx : List (IdxKey × Int)) (now : String) :
    FileMap :=
  let fs1 := fupdate fs TMP_P (some (write_rows idx now))
  fupdate (fupdate fs1 TMP_P none) STATE_CSV_P (fs1 TMP_P)

/-- Model of a run of `write_index_atomic` that fails before reaching
`os.replace`: some prefix of the serialization (here: arbitrary rows
`written`) has been flushed to the temporary path, and nothing else
happened. -/
def write_index_atomic_failed (fs : FileMap) (written : List (List String)) :
    FileMap :=
  fupdate fs TMP_P (some written)

/-! ## The allocator: next_free_name -/

/-- The destination filename `f"{date_str}_{event}_{i}{ext}"`. -/
def mkName (date event : String) (i : Nat) (ext : String) : String :=
  date ++ "_" ++ event ++ "_" ++ natStr i ++ ext

/-- The `while True` probe loop of `next_free_name` (lines 186-190), made
structural with fuel: advance `i` while the candidate name is taken.  The
caller passes fuel `taken.length + 1`, which the pigeonhole lemma below
shows is always enough for the loop to stop exactly at the first free
index, as the unbounded source loop does. -/
def goNext (taken : List String) (date event ext : String) : Nat → Nat → Nat
  | i, 0 => i
  | i, fuel + 1 =>
    if mkName date event i ext ∈ taken then goNext taken date event ext (i + 1) fuel
    else i

/-- Model of `next_free_name` (lines 180-190): starting from
`max(1, start_inc)`, return the first increment whose filename does not
exist among `taken` (the names present in the write-target directory),
together with that filename. -/
def next_free_name (taken : List String) (date event : String) (startVal : Int)
    (ext : String) : Nat × String :=
  let i := goNext taken date event ext (max 1 startVal).toNat (taken.length + 1)
  (i, mkName date event i ext)

/-! ## The rename planner / executor: main -/

/-- The invalid-character class of `clean`: `[<>:"/\\|?*]`. -/
def isInvalidChar (c : Char) : Bool :=
  c == '<' || c == '>' || c == ':' || c == '"' || c == '/' || c == '\\' ||
    c == '|' || c == '?' || c == '*'

/-- Python `str.strip` with the given character class, both ends. -/
def stripEnds (p : Char → Bool) (l : List Char) : List Char :=
  ((l.dropWhile p).reverse.dropWhile p).reverse

/-- Model of `clean` (line 55): replace invalid filename characters by
underscores, strip whitespace, then strip the characters in " ._" from both
ends. -/
def clean (s : String) : String :=
  let repl := s.data.map (fun c => if isInvalidChar c then '_' else c)
  ⟨stripEnds (fun c => c == ' ' || c == '.' || c == '_')
    (stripEnds Char.isWhitespace repl)⟩

/-- Python `event_in.replace(" ", "-")`. -/
def replaceSpaces (s : String) : String :=
  ⟨s.data.map (fun c => if c == ' ' then '-' else c)⟩

/-- A file of the inbox batch: its current name and its resolved capture
date.  The date comes from `extract_capture_date`, an external collaborator
(exiftool with mtime fallback); the run model takes it as an oracle. -/
structure InFile where
  name : String
  date : String
deriving DecidableEq, Repr

/-- The mutable state threaded through a year group: the inbox listing (the
write target of the renames) and the `next_inc` counter. -/
structure StepState where
  inbox : List FSEntry
  nextInc : Int
deriving Repr

/-- One planned (and, live, attempted) rename. -/
structure Assignment where
  orig : String
  inc : Nat
  target : String
deriving DecidableEq, Repr

/-- The body of the per-file loop (lines 252-262): compute the extension,
probe for the next free name in the inbox, advance `next_inc` past the
assigned increment, and in live mode attempt the physical rename — which
removes the old name from the inbox and creates the target, unless the
rename raises (oracle `fails`), in which case the listing is unchanged but
the increment stays issued. -/
def processFile (dry : Bool) (fails : String → Bool) (slug : String)
    (st : StepState) (f : InFile) : StepState × Assignment :=
  let ext := lowerStr (psuffix f.name)
  let r := next_free_name (st.inbox.map FSEntry.name) f.date slug st.nextInc ext
  let inbox2 :=
    if dry then st.inbox
    else if fails f.name then st.inbox
    else st.inbox.filter (fun e => e.name ≠ f.name) ++ [⟨r.2, true⟩]
  (⟨inbox2, (r.1 : Int) + 1⟩, ⟨f.name, r.1, r.2⟩)

/-- The per-file loop over one (already sorted) year group. -/
def processGroup (dry : Bool) (fails : String → Bool) (slug : String) :
    StepState → List InFile → StepState × List Assignment
  | st, [] => (st, [])
  | st, f :: fs =>
    let r1 := processFile dry fails slug st f
    let r2 := processGroup dry fails slug r1.1 fs
    (r2.1, r1.2 :: r2.2)

/-- The sort key `(date_str, p.name)` of line 243. -/
def fileLeb (a b : InFile) : Bool :=
  strLtb a.date b.date || (a.date == b.date && strLeb a.name b.name)

/-- The starting point of a year group (lines 236-239): the index entry if
present, else the auto-heal scan. -/
def groupStart (idx : List (IdxKey × Int)) (dest : DirTree) (slug year : String) :
    Int :=
  match lookupIdx idx (slug, year) with
  | some v => v
  | none => (scan_max_existing dest slug year : Int)

/-- The per-year loop of `main` (lines 235-263): for each year (ascending),
sort its files by `(date, name)`, run the per-file loop starting at the
group's starting point plus one, and store `next_inc - 1` back into the
in-memory index. -/
def runYears (dry : Bool) (fails : String → Bool) (slug : String) (dest : DirTree)
    (items : List InFile) :
    List (IdxKey × Int) → List FSEntry → List String →
      List (IdxKey × Int) × List FSEntry × List (String × List Assignment)
  | idx, inbox, [] => (idx, inbox, [])
  | idx, inbox, y :: ys =>
    let group := List.insertionSort (fun a b => fileLeb a b = true)
      (items.filter (fun f => takeStr 4 f.date == y))
    let r := processGroup dry fails slug ⟨inbox, groupStart idx dest slug y + 1⟩ group
    let rest := runYears dry fails slug dest items
      (insertIdx idx (slug, y) (r.1.nextInc - 1)) r.1.inbox ys
    (rest.1, rest.2.1, (y, r.2) :: rest.2.2)

/-- Deduplication keeping first occurrences (the distinct years of the batch,
as the keys of the `defaultdict` of line 227). -/
def dedupAux : List String → List String → List String
  | [], _ => []
  | x :: xs, seen =>
    if x ∈ seen then dedupAux xs seen else x :: dedupAux xs (x :: seen)

/-- The batch selected from the inbox listing (line 213): regular files in
sorted order, the script itself excluded. -/
def mainFiles (entries : List FSEntry) : List FSEntry :=
  (List.insertionSort (fun a b => strLeb a.name b.name = true) entries).filter
    (fun e => e.isFile && e.name != "rename_with_index.py")

/-- The command line surface: `--event <slug>` (required) and `--dry-run`. -/
structure Args where
  event : Option String
  dryRun : Bool

/-- The world a run touches: the inbox listing (`none` = the directory is
missing), the destination trees read by the scanner, the durable index file
(rows and modification time), the capture-date oracle, the rename-failure
oracle, and the current wall-clock readings used when committing. -/
structure World where
  inbox : Option (List FSEntry)
  dest : DirTree
  indexFile : Option (List (List String))
  indexMtime : Nat
  dateOf : String → String
  renameFails : String → Bool
  nowStr : String
  nowTime : Nat

/-- Outcome of a run: the final world, the process exit status, and the
planned mapping per year (what the run prints). -/
structure RunResult where
  world : World
  exitCode : Nat
  plans : List (String × List Assignment)

/-- Model of `main` (lines 193-267).  Exit paths: a missing `--event`
argument exits 2; a missing inbox directory exits 2; an empty batch prints
an informational message and returns (exit status 0); otherwise the run
completes with exit status 0.  In live mode the commit installs the
serialized index rows (the successful `write_index_atomic` path) and stamps
the file's modification time; a dry run leaves the durable file untouched.
(The unconditional `STATE_DIR.mkdir` touches only the state directory, not
the index file, and is not otherwise modelled.) -/
def runMain (w : World) (a : Args) : RunResult :=
  match a.event with
  | none => ⟨w, 2, []⟩
  | some ev =>
    match w.inbox with
    | none => ⟨w, 2, []⟩
    | some entries =>
      let slug := clean (lowerStr (replaceSpaces ev))
      let files := mainFiles entries
      if files.isEmpty then ⟨w, 0, []⟩
      else
        let items := files.map (fun e => InFile.mk e.name (w.dateOf e.name))
        let idx := read_index w.indexFile
        let years := List.insertionSort (fun a b => strLeb a b = true)
          (dedupAux (items.map (fun f => takeStr 4 f.date)) [])
        let r := runYears a.dryRun w.renameFails slug w.dest items idx entries years
        let wout :=
          if a.dryRun then { w with inbox := some (r.2.1) }
          else { w with inbox := some (r.2.1),
                        indexFile := some (write_rows (r.1) w.nowStr),
                        indexMtime := w.nowTime }
        ⟨wout, 0, r.2.2⟩

/-! ## Concrete fixtures used to instantiate the theorems -/

/-- A destination tree whose library root holds one already-renamed file of
event `trip`, increment 3. -/
def fsLibTrip : DirTree := fun d =>
  if d = ["library", "trip"] then some [⟨"2024-03-01_trip_3.jpg", true⟩]
  else none

/-- A world with two inbox photos and no prior state. -/
def wTwoFiles : World :=
  { inbox := some [⟨"b.jpg", true⟩, ⟨"a.jpg", true⟩],
    dest := fun _ => none,
    indexFile := none,
    indexMtime := 7,
    dateOf := fun _ => "2024-01-01",
    renameFails := fun _ => false,
    nowStr := "2025-01-01T00:00:00",
    nowTime := 9 }

/-- The same world with an existing but empty inbox. -/
def wEmptyInbox : World := { wTwoFiles with inbox := some [] }

/-- The same world with the inbox directory missing. -/
def wNoInbox : World := { wTwoFiles with inbox := none }

/-! ### Round-trip lemmas for the decimal model -/

theorem digitVal_digitChar {d : Nat} (h : d < 10) : digitVal (digitChar d) = d := by
  interval_cases d <;> decide

theorem isDigit_digitChar {d : Nat} (h : d < 10) : (digitChar d).isDigit = true := by
  interval_cases d <;> decide

theorem decimalVal_append_digit (ds : List Char) (c : Char) :
    decimalVal (ds ++ [c]) = 10 * decimalVal ds + digitVal c := by
  simp [decimalVal, List.foldl_append]

theorem decDigitsF_ne_nil {fuel n : Nat} (h : n < fuel) :
    decDigitsF fuel n ≠ [] := by
  induction fuel generalizing n with
  | zero => omega
  | succ fuel ih =>
    simp only [decDigitsF]
    split
    · simp
    · exact List.append_ne_nil_of_right_ne_nil _ (by simp)

theorem decimalVal_decDigitsF {fuel n : Nat} (h : n < fuel) :
    decimalVal (decDigitsF fuel n) = n := by
  induction fuel generalizing n with
  | zero => omega
  | succ fuel ih =>
    simp only [decDigitsF]
    split
    · next hlt =>
      simp [decimalVal, digitVal_digitChar hlt]
    · next hge =>
      have h10 : 10 ≤ n := by omega
      have hdiv : n / 10 < n := Nat.div_lt_self (by omega) (by omega)
      rw [decimalVal_append_digit, ih (by omega),
        digitVal_digitChar (Nat.mod_lt _ (by omega))]
      omega

theorem all_isDigit_decDigitsF {fuel n : Nat} (h : n < fuel) :
    (decDigitsF fuel n).all Char.isDigit = true := by
  induction fuel generalizing n with
  | zero => omega
  | succ fuel ih =>
    simp only [decDigitsF]
    split
    · next hlt => simp [isDigit_digitChar hlt]
    · next hge =>
      have hdiv : n / 10 < n := Nat.div_lt_self (by omega) (by omega)
      simp only [List.all_append, Bool.and_eq_true]
      exact ⟨ih (by omega), by simp [isDigit_digitChar (Nat.mod_lt _ (by omega))]⟩

theorem decimalVal_natStr (n : Nat) : decimalVal (natStr n).data = n :=
  decimalVal_decDigitsF (Nat.lt_succ_self n)

theorem natStr_injective : Function.Injective natStr := by
  intro a b h
  have := congrArg (fun s => decimalVal s.data) h
  simpa [decimalVal_natStr] using this

theorem parseDigits_natStr (n : Nat) : parseDigits (natStr n).data = some n := by
  have hne : (natStr n).data ≠ [] := decDigitsF_ne_nil (Nat.lt_succ_self n)
  have hall : (natStr n).data.all Char.isDigit = true :=
    all_isDigit_decDigitsF (Nat.lt_succ_self n)
  have hval := decimalVal_natStr n
  unfold parseDigits
  cases hd : (natStr n).data with
  | nil => exact absurd hd hne
  | cons c cs =>
    rw [hd] at hall hval
    simp [hall, hval]

theorem not_isWhitespace_of_isDigit {c : Char} (h : c.isDigit = true) :
    c.isWhitespace = false := by
  by_contra hb
  have hw : c.isWhitespace = true := by simpa using hb
  have hc : ((c = ' ' ∨ c = '\t') ∨ c = '\x0d') ∨ c = '\n' := by
    simpa [Char.isWhitespace, Bool.or_eq_true, decide_eq_true_eq] using hw
  rcases hc with ((h1 | h1) | h1) | h1 <;> subst h1 <;> exact absurd h (by decide)

theorem dropWhile_eq_self_of_head {p : Char → Bool} :
    ∀ {l : List Char}, (∀ c ∈ l.head?, p c = false) → l.dropWhile p = l := by
  intro l h
  cases l with
  | nil => rfl
  | cons c cs =>
    have : p c = false := h c rfl
    simp [List.dropWhile, this]


/-- Appending strings appends their character data. -/
theorem strData_append (a b : String) : (a ++ b).data = a.data ++ b.data := rfl


/-! ## Proofs: int round-trip -/

theorem stripWs_eq_self {l : List Char} (h : ∀ c ∈ l, c.isWhitespace = false) :
    ((l.dropWhile Char.isWhitespace).reverse.dropWhile Char.isWhitespace).reverse
      = l := by
  have h1 : l.dropWhile Char.isWhitespace = l :=
    dropWhile_eq_self_of_head (fun c hc => h c (List.mem_of_mem_head? hc))
  have h2 : l.reverse.dropWhile Char.isWhitespace = l.reverse :=
    dropWhile_eq_self_of_head
      (fun c hc => h c (List.mem_reverse.1 (List.mem_of_mem_head? hc)))
  rw [h1, h2, List.reverse_reverse]

theorem digit_ne_dash {c : Char} (h : c.isDigit = true) : c ≠ '-' := by
  rintro rfl; exact absurd h (by decide)

theorem digit_ne_plus {c : Char} (h : c.isDigit = true) : c ≠ '+' := by
  rintro rfl; exact absurd h (by decide)

theorem parsePyInt_intStr (v : Int) : parsePyInt (intStr v) = some v := by
  by_cases hv : v < 0
  · have hrepr : intStr v = "-" ++ natStr v.natAbs := by simp [intStr, hv]
    have hdata : (intStr v).data = '-' :: (natStr v.natAbs).data := by
      rw [hrepr, strData_append]; rfl
    have hall : ∀ c ∈ (intStr v).data, c.isWhitespace = false := by
      rw [hdata]
      intro c hc
      rcases List.mem_cons.1 hc with rfl | hc
      · decide
      · exact not_isWhitespace_of_isDigit
          (by
            have := all_isDigit_decDigitsF (Nat.lt_succ_self v.natAbs)
            exact List.all_eq_true.1 this c hc)
    have hall2 : ∀ c ∈ ('-' :: (natStr v.natAbs).data), c.isWhitespace = false := by
      rw [← hdata]; exact hall
    simp only [parsePyInt, hdata, stripWs_eq_self hall2]
    rw [if_pos trivial, parseDigits_natStr]
    have hva : -((v.natAbs : Nat) : Int) = v := by omega
    exact congrArg some hva
  · have hrepr : intStr v = natStr v.toNat := by simp [intStr, hv]
    have hall : ∀ c ∈ (intStr v).data, c.isWhitespace = false := by
      rw [hrepr]
      intro c hc
      exact not_isWhitespace_of_isDigit
        (by
          have := all_isDigit_decDigitsF (Nat.lt_succ_self v.toNat)
          exact List.all_eq_true.1 this c hc)
    have hne : (intStr v).data ≠ [] := by
      rw [hrepr]; exact decDigitsF_ne_nil (Nat.lt_succ_self v.toNat)
    have hdig : ∀ c ∈ (intStr v).data, c.isDigit = true := by
      rw [hrepr]
      intro c hc
      have := all_isDigit_decDigitsF (Nat.lt_succ_self v.toNat)
      exact List.all_eq_true.1 this c hc
    simp only [parsePyInt, stripWs_eq_self hall]
    cases hd : (intStr v).data with
    | nil => exact absurd hd hne
    | cons c ds =>
      have hc : c.isDigit = true := hdig c (hd ▸ List.mem_cons_self c ds)
      have h1 : ¬ c = '-' := digit_ne_dash hc
      have h2 : ¬ c = '+' := digit_ne_plus hc
      simp only [h1, h2, if_false]
      have : parseDigits (c :: ds) = some v.toNat := by
        rw [← hd, hrepr]; exact parseDigits_natStr v.toNat
      rw [this]
      simp
      omega

/-! ## Proofs: the allocation probe -/

theorem natStr_data_inj {i j : Nat} (h : (natStr i).data = (natStr j).data) :
    i = j := by
  have := congrArg decimalVal h
  rwa [decimalVal_natStr, decimalVal_natStr] at this

theorem mkName_inj {date event ext : String} {i j : Nat}
    (h : mkName date event i ext = mkName date event j ext) : i = j := by
  have hd := congrArg String.data h
  simp only [mkName, strData_append, List.append_assoc] at hd
  have h1 := List.append_cancel_left hd
  have h2 := List.append_cancel_left h1
  have h3 := List.append_cancel_left h2
  have h4 := List.append_cancel_left h3
  exact natStr_data_inj (List.append_cancel_right h4)

theorem goNext_ge (taken : List String) (d e x : String) :
    ∀ fuel i, i ≤ goNext taken d e x i fuel := by
  intro fuel
  induction fuel with
  | zero => intro i; simp [goNext]
  | succ f ih =>
    intro i
    simp only [goNext]
    split
    · exact le_trans (Nat.le_succ i) (ih (i + 1))
    · exact le_refl i

theorem goNext_free (taken : List String) (d e x : String) :
    ∀ fuel i, (∃ k, k < fuel ∧ mkName d e (i + k) x ∉ taken) →
      mkName d e (goNext taken d e x i fuel) x ∉ taken := by
  intro fuel
  induction fuel with
  | zero => rintro i ⟨k, hk, _⟩; omega
  | succ f ih =>
    rintro i ⟨k, hk, hfree⟩
    simp only [goNext]
    split
    · next hmem =>
      apply ih (i + 1)
      cases k with
      | zero => exact absurd (by simpa using hmem) (by simpa using hfree)
      | succ k2 =>
        refine ⟨k2, by omega, ?_⟩
        have harith : i + 1 + k2 = i + (k2 + 1) := by omega
        rw [harith]
        exact hfree
    · next hmem => exact hmem

theorem exists_free_name (taken : List String) (d e x : String) (i : Nat) :
    ∃ k, k < taken.length + 1 ∧ mkName d e (i + k) x ∉ taken := by
  by_contra hc
  push_neg at hc
  have hinj : Function.Injective
      (fun k : Fin (taken.length + 1) => mkName d e (i + k.val) x) := by
    intro a b hab
    have := mkName_inj hab
    exact Fin.ext (by omega)
  have hsub : ∀ k : Fin (taken.length + 1),
      mkName d e (i + k.val) x ∈ taken.toFinset := by
    intro k
    exact List.mem_toFinset.2 (hc k.val k.isLt)
  have hcard : (Finset.univ : Finset (Fin (taken.length + 1))).card ≤
      taken.toFinset.card :=
    Finset.card_le_card_of_injOn
      (fun k : Fin (taken.length + 1) => mkName d e (i + k.val) x)
      (fun a _ => hsub a) hinj.injOn
  rw [Finset.card_univ, Fintype.card_fin] at hcard
  have := List.toFinset_card_le taken
  omega

theorem next_free_name_free (taken : List String) (d e : String) (s : Int)
    (x : String) : (next_free_name taken d e s x).2 ∉ taken := by
  simp only [next_free_name]
  exact goNext_free taken d e x (taken.length + 1) (max 1 s).toNat
    (exists_free_name taken d e x (max 1 s).toNat)

theorem next_free_name_ge (taken : List String) (d e : String) (s : Int)
    (x : String) : (max 1 s).toNat ≤ (next_free_name taken d e s x).1 := by
  simp only [next_free_name]
  exact goNext_ge taken d e x (taken.length + 1) (max 1 s).toNat

theorem next_free_name_of_free (taken : List String) (d e : String) (s : Int)
    (x : String) (h : mkName d e (max 1 s).toNat x ∉ taken) :
    (next_free_name taken d e s x).1 = (max 1 s).toNat := by
  simp [next_free_name, goNext, h]

theorem next_free_name_target (taken : List String) (d e : String) (s : Int)
    (x : String) :
    (next_free_name taken d e s x).2 = mkName d e (next_free_name taken d e s x).1 x :=
  rfl

/-! ## Proofs: the per-file and per-group loops -/

theorem maxStart_succ (n : Nat) : (max 1 ((n : Int) + 1)).toNat = n + 1 := by
  rw [max_eq_right (by omega : (1 : Int) ≤ (n : Int) + 1)]
  omega

theorem processFile_inc_ge (dry : Bool) (fails : String → Bool) (slug : String)
    (st : StepState) (f : InFile) :
    (max 1 st.nextInc).toNat ≤ ((processFile dry fails slug st f).2).inc :=
  next_free_name_ge _ _ _ _ _

theorem processFile_nextInc (dry : Bool) (fails : String → Bool) (slug : String)
    (st : StepState) (f : InFile) :
    ((processFile dry fails slug st f).1).nextInc =
      (((processFile dry fails slug st f).2).inc : Int) + 1 := rfl

theorem processFile_dry_inbox (fails : String → Bool) (slug : String)
    (st : StepState) (f : InFile) :
    ((processFile true fails slug st f).1).inbox = st.inbox := rfl

theorem processGroup_spec (dry : Bool) (fails : String → Bool) (slug : String) :
    ∀ (files : List InFile) (st : StepState),
      (((processGroup dry fails slug st files).2.map Assignment.inc).Chain' (· < ·))
      ∧ (∀ x ∈ (processGroup dry fails slug st files).2,
          (max 1 st.nextInc).toNat ≤ x.inc)
      ∧ ((processGroup dry fails slug st files).1.nextInc =
          match (processGroup dry fails slug st files).2.getLast? with
          | none => st.nextInc
          | some x => (x.inc : Int) + 1) := by
  intro files
  induction files with
  | nil =>
    intro st
    refine ⟨by simp [processGroup], by simp [processGroup], ?_⟩
    simp [processGroup]
  | cons f fs ih =>
    intro st
    obtain ⟨ihc, ihge, ihlast⟩ := ih ((processFile dry fails slug st f).1)
    have hstep : processGroup dry fails slug st (f :: fs) =
        ((processGroup dry fails slug ((processFile dry fails slug st f).1) fs).1,
         (processFile dry fails slug st f).2 ::
           (processGroup dry fails slug ((processFile dry fails slug st f).1) fs).2) :=
      rfl
    rw [hstep]
    set r1 := processFile dry fails slug st f with hr1
    set r2 := processGroup dry fails slug r1.1 fs with hr2
    have hnext : r1.1.nextInc = ((r1.2.inc : Int) + 1) := processFile_nextInc _ _ _ _ _
    have hge1 : (max 1 st.nextInc).toNat ≤ r1.2.inc := processFile_inc_ge _ _ _ _ _
    have hge2 : ∀ x ∈ r2.2, r1.2.inc + 1 ≤ x.inc := by
      intro x hx
      have := ihge x hx
      rw [hnext, maxStart_succ] at this
      exact this
    refine ⟨?_, ?_, ?_⟩
    · rw [List.map_cons, List.chain'_cons']
      refine ⟨?_, ihc⟩
      intro b hb
      rw [List.head?_map] at hb
      rcases Option.map_eq_some'.1 hb with ⟨x, hx, hxb⟩
      have hxmem : x ∈ r2.2 := List.mem_of_mem_head? hx
      have := hge2 x hxmem
      omega
    · intro x hx
      rcases List.mem_cons.1 hx with rfl | hx2
      · exact hge1
      · have := hge2 x hx2
        omega
    · cases hlast : r2.2 with
      | nil =>
        rw [hlast] at ihlast
        simp only [List.getLast?_nil] at ihlast
        simp only [List.getLast?_singleton]
        rw [ihlast, hnext]
      | cons b t =>
        rw [hlast] at ihlast
        rw [List.getLast?_cons_cons]
        cases hy : (b :: t).getLast? with
        | none => simp at hy
        | some y =>
          rw [hy] at ihlast
          exact ihlast

theorem processGroup_dry_inbox (fails : String → Bool) (slug : String) :
    ∀ (files : List InFile) (st : StepState),
      ((processGroup true fails slug st files).1).inbox = st.inbox := by
  intro files
  induction files with
  | nil => intro st; rfl
  | cons f fs ih =>
    intro st
    have hstep : (processGroup true fails slug st (f :: fs)).1 =
        (processGroup true fails slug ((processFile true fails slug st f).1) fs).1 :=
      rfl
    rw [hstep, ih, processFile_dry_inbox]

theorem runYears_dry_inbox (fails : String → Bool) (slug : String) (dest : DirTree)
    (items : List InFile) :
    ∀ (years : List String) (idx : List (IdxKey × Int)) (inbox : List FSEntry),
      (runYears true fails slug dest items idx inbox years).2.1 = inbox := by
  intro years
  induction years with
  | nil => intro idx inbox; rfl
  | cons y ys ih =>
    intro idx inbox
    have hstep : (runYears true fails slug dest items idx inbox (y :: ys)).2.1 =
        (runYears true fails slug dest items
          (insertIdx idx (slug, y)
            ((processGroup true fails slug ⟨inbox, groupStart idx dest slug y + 1⟩
              (List.insertionSort (fun a b => fileLeb a b = true)
                (items.filter (fun f => takeStr 4 f.date == y)))).1.nextInc - 1))
          ((processGroup true fails slug ⟨inbox, groupStart idx dest slug y + 1⟩
            (List.insertionSort (fun a b => fileLeb a b = true)
              (items.filter (fun f => takeStr 4 f.date == y)))).1.inbox)
          ys).2.1 := rfl
    rw [hstep, ih, processGroup_dry_inbox]

theorem runYears_plans_chain (dry : Bool) (fails : String → Bool) (slug : String)
    (dest : DirTree) (items : List InFile) :
    ∀ (years : List String) (idx : List (IdxKey × Int)) (inbox : List FSEntry),
      ∀ p ∈ (runYears dry fails slug dest items idx inbox years).2.2,
        ((p.2.map Assignment.inc).Chain' (· < ·)) := by
  intro years
  induction years with
  | nil => intro idx inbox p hp; simp [runYears] at hp
  | cons y ys ih =>
    intro idx inbox p hp
    rcases List.mem_cons.1 hp with rfl | hp2
    · exact (processGroup_spec dry fails slug _ _).1
    · exact ih _ _ p hp2

/-- In a strictly increasing list every element is at most the last one. -/
theorem chain_lt_le_getLast :
    ∀ (l : List Nat), l.Chain' (· < ·) → ∀ (hne : l ≠ []) (x : Nat), x ∈ l →
      x ≤ l.getLast hne := by
  intro l
  induction l with
  | nil => intro _ hne; exact absurd rfl hne
  | cons a t ih =>
    intro hch hne x hx
    cases t with
    | nil =>
      rcases List.mem_singleton.1 hx with rfl
      simp [List.getLast]
    | cons b t2 =>
      rw [List.getLast_cons (by simp)]
      have hch2 := List.chain'_cons.1 hch
      rcases List.mem_cons.1 hx with rfl | hx2
      · have hab : x < b := hch2.1
        have hb := ih hch2.2 (by simp) b (List.mem_cons_self b t2)
        omega
      · exact ih hch2.2 (by simp) x hx2

/-! ## Proofs: the auto-healing scanner -/

theorem scanStep_cases (event year : String) (m : Nat) (e : FSEntry) :
    scanStep event year m e = m ∨
      (e.isFile = true ∧ ∃ info, parse_stem (pstem e.name) = some info ∧
        info.event = event ∧ takeStr 4 info.date = year ∧
        scanStep event year m e = info.inc) := by
  by_cases hf : e.isFile = true
  · cases hp : parse_stem (pstem e.name) with
    | none => exact Or.inl (by simp [scanStep, hf, hp])
    | some info =>
      by_cases hev : info.event = event
      · by_cases hyr : takeStr 4 info.date = year
        · by_cases hm : m < info.inc
          · exact Or.inr ⟨hf, info, rfl, hev, hyr,
              by simp [scanStep, hf, hp, hev, hyr, hm]⟩
          · exact Or.inl (by simp [scanStep, hf, hp, hev, hyr, hm])
        · exact Or.inl (by simp [scanStep, hf, hp, hev, hyr])
      · exact Or.inl (by simp [scanStep, hf, hp, hev])
  · exact Or.inl (by simp [scanStep, hf])

theorem scanStep_ge (event year : String) (m : Nat) (e : FSEntry) :
    m ≤ scanStep event year m e := by
  unfold scanStep
  split
  · split
    · exact le_refl m
    · split
      · split
        · split
          · omega
          · exact le_refl m
        · exact le_refl m
      · exact le_refl m
  · exact le_refl m

theorem scanStep_le (event year : String) (m : Nat) (e : FSEntry)
    (info : StemInfo) (hf : e.isFile = true)
    (hp : parse_stem (pstem e.name) = some info) (hev : info.event = event)
    (hyr : takeStr 4 info.date = year) : info.inc ≤ scanStep event year m e := by
  simp only [scanStep, hf, hp, hev, hyr, if_true, if_pos]
  split <;> omega

theorem foldl_scanStep_ge (event year : String) :
    ∀ (entries : List FSEntry) (m : Nat),
      m ≤ entries.foldl (scanStep event year) m := by
  intro entries
  induction entries with
  | nil => intro m; exact le_refl m
  | cons a t ih =>
    intro m
    have h1 := scanStep_ge event year m a
    have h2 := ih (scanStep event year m a)
    simpa using le_trans h1 h2

theorem foldl_scanStep_ub (event year : String) :
    ∀ (entries : List FSEntry) (m : Nat) (e : FSEntry) (info : StemInfo),
      e ∈ entries → e.isFile = true → parse_stem (pstem e.name) = some info →
      info.event = event → takeStr 4 info.date = year →
      info.inc ≤ entries.foldl (scanStep event year) m := by
  intro entries
  induction entries with
  | nil => intro m e info he; simp at he
  | cons a t ih =>
    intro m e info he hf hp hev hyr
    rcases List.mem_cons.1 he with rfl | he2
    · have h1 := scanStep_le event year m e info hf hp hev hyr
      have h2 := foldl_scanStep_ge event year t (scanStep event year m e)
      simpa using le_trans h1 h2
    · simpa using ih (scanStep event year m a) e info he2 hf hp hev hyr

theorem foldl_scanStep_attained (event year : String) :
    ∀ (entries : List FSEntry) (m : Nat),
      entries.foldl (scanStep event year) m = m ∨
        ∃ e ∈ entries, ∃ info, e.isFile = true ∧
          parse_stem (pstem e.name) = some info ∧ info.event = event ∧
          takeStr 4 info.date = year ∧
          info.inc = entries.foldl (scanStep event year) m := by
  intro entries
  induction entries with
  | nil => intro m; exact Or.inl rfl
  | cons a t ih =>
    intro m
    have hfold : (a :: t).foldl (scanStep event year) m =
        t.foldl (scanStep event year) (scanStep event year m a) := by simp
    rcases ih (scanStep event year m a) with hid | ⟨e, he, info, hf, hp, hev, hyr, hval⟩
    · rcases scanStep_cases event year m a with hsm | ⟨hf, info, hp, hev, hyr, hsv⟩
      · exact Or.inl (by rw [hfold, hid, hsm])
      · exact Or.inr ⟨a, List.mem_cons_self a t, info, hf, hp, hev, hyr,
          by rw [hfold, hid, hsv]⟩
    · exact Or.inr ⟨e, List.mem_cons_of_mem a he, info, hf, hp, hev, hyr,
        by rw [hfold]; exact hval⟩

theorem dirsFold_ge (fs : DirTree) (event year : String) :
    ∀ (dirs : List (List String)) (m : Nat),
      m ≤ dirs.foldl
        (fun m d => match fs d with
          | none => m
          | some entries => entries.foldl (scanStep event year) m) m := by
  intro dirs
  induction dirs with
  | nil => intro m; exact le_refl m
  | cons d t ih =>
    intro m
    have h1 : m ≤ (match fs d with
        | none => m
        | some entries => entries.foldl (scanStep event year) m) := by
      cases fs d with
      | none => exact le_refl m
      | some entries => exact foldl_scanStep_ge event year entries m
    have h2 := ih (match fs d with
      | none => m
      | some entries => entries.foldl (scanStep event year) m)
    simpa using le_trans h1 h2

theorem dirsFold_ub (fs : DirTree) (event year : String) :
    ∀ (dirs : List (List String)) (m : Nat) (d : List String)
      (entries : List FSEntry) (e : FSEntry) (info : StemInfo),
      d ∈ dirs → fs d = some entries → e ∈ entries → e.isFile = true →
      parse_stem (pstem e.name) = some info → info.event = event →
      takeStr 4 info.date = year →
      info.inc ≤ dirs.foldl
        (fun m d => match fs d with
          | none => m
          | some entries => entries.foldl (scanStep event year) m) m := by
  intro dirs
  induction dirs with
  | nil => intro m d entries e info hd; simp at hd
  | cons d0 t ih =>
    intro m d entries e info hd hfs he hf hp hev hyr
    rcases List.mem_cons.1 hd with rfl | hd2
    · have h1 : info.inc ≤ (match fs d with
          | none => m
          | some es => es.foldl (scanStep event year) m) := by
        rw [hfs]
        exact foldl_scanStep_ub event year entries m e info he hf hp hev hyr
      have h2 := dirsFold_ge fs event year t (match fs d with
        | none => m
        | some es => es.foldl (scanStep event year) m)
      simpa using le_trans h1 h2
    · simpa using ih _ d entries e info hd2 hfs he hf hp hev hyr

theorem dirsFold_attained (fs : DirTree) (event year : String) :
    ∀ (dirs : List (List String)) (m : Nat),
      dirs.foldl
        (fun m d => match fs d with
          | none => m
          | some entries => entries.foldl (scanStep event year) m) m = m ∨
      ∃ d ∈ dirs, ∃ entries, fs d = some entries ∧ ∃ e ∈ entries, ∃ info,
        e.isFile = true ∧ parse_stem (pstem e.name) = some info ∧
        info.event = event ∧ takeStr 4 info.date = year ∧
        info.inc = dirs.foldl
          (fun m d => match fs d with
            | none => m
            | some entries => entries.foldl (scanStep event year) m) m := by
  intro dirs
  induction dirs with
  | nil => intro m; exact Or.inl rfl
  | cons d0 t ih =>
    intro m
    set s := (match fs d0 with
      | none => m
      | some entries => entries.foldl (scanStep event year) m) with hs
    have hfold : (d0 :: t).foldl
        (fun m d => match fs d with
          | none => m
          | some entries => entries.foldl (scanStep event year) m) m =
        t.foldl
          (fun m d => match fs d with
            | none => m
            | some entries => entries.foldl (scanStep event year) m) s := by
      simp [hs]
    rcases ih s with hid | ⟨d, hd, entries, hfs, e, he, info, hf, hp, hev, hyr, hval⟩
    · have hcase : s = m ∨
          ∃ entries, fs d0 = some entries ∧ ∃ e ∈ entries, ∃ info,
            e.isFile = true ∧ parse_stem (pstem e.name) = some info ∧
            info.event = event ∧ takeStr 4 info.date = year ∧ info.inc = s := by
        rw [hs]
        cases hfs : fs d0 with
        | none => exact Or.inl rfl
        | some entries =>
          rcases foldl_scanStep_attained event year entries m with hm |
            ⟨e, he, info, hf, hp, hev, hyr, hval⟩
          · exact Or.inl hm
          · exact Or.inr ⟨entries, rfl, e, he, info, hf, hp, hev, hyr, hval⟩
      rcases hcase with hsm | ⟨entries, hfs, e, he, info, hf, hp, hev, hyr, hval⟩
      · exact Or.inl (by rw [hfold, hid, hsm])
      · exact Or.inr ⟨d0, List.mem_cons_self d0 t, entries, hfs, e, he, info,
          hf, hp, hev, hyr, by rw [hfold, hid]; exact hval⟩
    · exact Or.inr ⟨d, List.mem_cons_of_mem d0 hd, entries, hfs, e, he, info,
        hf, hp, hev, hyr, by rw [hfold]; exact hval⟩

/-! ## Proofs: the stem pattern and underscore events -/

theorem parse_stem_event_no_underscore {s : String} {info : StemInfo}
    (h : parse_stem s = some info) : '_' ∉ info.event.data := by
  unfold parse_stem at h
  cases hd : parseDatePart s.data with
  | none => rw [hd] at h; simp at h
  | some pr =>
    rw [hd] at h
    obtain ⟨date, r1⟩ := pr
    dsimp only at h
    cases he : parseEventPart r1 with
    | none => rw [he] at h; simp at h
    | some pe =>
      rw [he] at h
      obtain ⟨ev, r2⟩ := pe
      dsimp only at h
      cases hi : parseIncPart r2 with
      | none => rw [hi] at h; simp at h
      | some inc =>
        rw [hi] at h
        simp only [Option.some.injEq] at h
        have hev : info.event = ev := by rw [← h]
        rw [hev]
        unfold parseEventPart at he
        split at he
        · next c ev2 u r3 heq1 heq2 =>
          simp only [Option.some.injEq, Prod.mk.injEq] at he
          intro hmem
          have hevdata : ev.data = c :: ev2 := by rw [← he.1]
          rw [hevdata] at hmem
          have hin : '_' ∈ r1.takeWhile (fun c => c != '_') := by
            rw [heq1]; exact hmem
          have := List.mem_takeWhile_imp hin
          simp at this
        · simp at he

theorem scanStep_underscore {event : String} (year : String)
    (h : '_' ∈ event.data) (m : Nat) (e : FSEntry) :
    scanStep event year m e = m := by
  rcases scanStep_cases event year m e with h1 | ⟨_, info, hp, hev, _, _⟩
  · exact h1
  · exfalso
    rw [← hev] at h
    exact parse_stem_event_no_underscore hp h

theorem scan_max_existing_underscore {event : String} (fs : DirTree)
    (year : String) (h : '_' ∈ event.data) :
    scan_max_existing fs event year = 0 := by
  have hinner : ∀ (es : List FSEntry) (m : Nat),
      es.foldl (scanStep event year) m = m := by
    intro es
    induction es with
    | nil => intro m; rfl
    | cons a t ih =>
      intro m
      have := scanStep_underscore year h m a
      simp [this, ih]
  have houter : ∀ (dirs : List (List String)) (m : Nat),
      dirs.foldl
        (fun m d => match fs d with
          | none => m
          | some entries => entries.foldl (scanStep event year) m) m = m := by
    intro dirs
    induction dirs with
    | nil => intro m; rfl
    | cons d t ih =>
      intro m
      have hstep : (match fs d with
          | none => m
          | some entries => entries.foldl (scanStep event year) m) = m := by
        cases fs d with
        | none => rfl
        | some entries => exact hinner entries m
      simp only [List.foldl_cons, hstep]
      exact ih m
  exact houter (candidateDirs event) 0

/-! ## Proofs: the index store round-trip -/

theorem lookupIdx_insertIdx_self :
    ∀ (l : List (IdxKey × Int)) (k : IdxKey) (v : Int),
      lookupIdx (insertIdx l k v) k = some v := by
  intro l
  induction l with
  | nil => intro k v; simp [insertIdx, lookupIdx]
  | cons kv t ih =>
    intro k v
    obtain ⟨k1, v1⟩ := kv
    by_cases hk : k1 = k
    · simp [insertIdx, hk, lookupIdx]
    · simp only [insertIdx, hk, if_false, lookupIdx]
      exact ih k v

theorem insertIdx_of_not_mem :
    ∀ (l : List (IdxKey × Int)) (k : IdxKey) (v : Int),
      k ∉ l.map Prod.fst → insertIdx l k v = l ++ [(k, v)] := by
  intro l
  induction l with
  | nil => intro k v _; rfl
  | cons kv t ih =>
    intro k v hk
    obtain ⟨k1, v1⟩ := kv
    simp only [List.map_cons, List.mem_cons] at hk
    push_neg at hk
    simp only [insertIdx]
    rw [if_neg (Ne.symm hk.1)]
    rw [ih k v hk.2]
    simp

theorem foldl_insertIdx_append :
    ∀ (l acc : List (IdxKey × Int)),
      (∀ kv ∈ l, kv.1 ∉ acc.map Prod.fst) →
      List.Pairwise (fun a b => a.1 ≠ b.1) l →
      l.foldl (fun ac kv => insertIdx ac kv.1 kv.2) acc = acc ++ l := by
  intro l
  induction l with
  | nil => intro acc _ _; simp
  | cons kv t ih =>
    intro acc hacc hpw
    have hpc := List.pairwise_cons.1 hpw
    have hnotin : kv.1 ∉ acc.map Prod.fst := hacc kv (List.mem_cons_self kv t)
    have hins : insertIdx acc kv.1 kv.2 = acc ++ [kv] :=
      insertIdx_of_not_mem acc kv.1 kv.2 hnotin
    have hnext : ∀ kv2 ∈ t, kv2.1 ∉ (acc ++ [kv]).map Prod.fst := by
      intro kv2 hkv2
      rw [List.map_append, List.mem_append]
      rintro (hin | hin)
      · exact hacc kv2 (List.mem_cons_of_mem kv hkv2) hin
      · simp only [List.map_cons, List.map_nil, List.mem_singleton] at hin
        exact hpc.1 kv2 hkv2 hin.symm
    rw [List.foldl_cons, hins, ih (acc ++ [kv]) hnext hpc.2, List.append_assoc]
    rfl

theorem lookupIdx_eq_of_perm {l1 l2 : List (IdxKey × Int)} (hp : l1.Perm l2) :
    List.Pairwise (fun a b => a.1 ≠ b.1) l1 →
      ∀ k, lookupIdx l1 k = lookupIdx l2 k := by
  induction hp with
  | nil => intro _ k; rfl
  | cons x h ih =>
    intro hnd k
    obtain ⟨kx, vx⟩ := x
    simp only [lookupIdx]
    by_cases hk : kx = k
    · simp [hk]
    · simp only [hk, if_false]
      exact ih (List.pairwise_cons.1 hnd).2 k
  | swap x y l =>
    intro hnd k
    obtain ⟨kx, vx⟩ := x
    obtain ⟨ky, vy⟩ := y
    have hxy : ky ≠ kx := by
      have h1 := (List.pairwise_cons.1 hnd).1
      exact h1 (kx, vx) (List.mem_cons_self (kx, vx) l)
    simp only [lookupIdx]
    by_cases h1 : ky = k
    · have h2 : ¬ kx = k := by rw [← h1]; exact fun he => hxy he.symm
      simp [h1, h2]
    · by_cases h2 : kx = k
      · simp [h1, h2]
      · simp [h1, h2]
  | trans h1 h2 ih1 ih2 =>
    intro hnd k
    have hnd2 := (List.Perm.pairwise_iff (fun {x y} hab => Ne.symm hab) h1).1 hnd
    rw [ih1 hnd k, ih2 hnd2 k]

theorem readRow_write_row (ac : List (IdxKey × Int)) (k : IdxKey) (v : Int)
    (now : String) : readRow ac [k.1, k.2, intStr v, now] = insertIdx ac k v := by
  simp [readRow, parsePyInt_intStr]

theorem read_index_write_rows (idx : List (IdxKey × Int)) (now : String)
    (hnd : List.Pairwise (fun a b => a.1 ≠ b.1) idx) :
    read_index (some (write_rows idx now)) =
      List.insertionSort (fun a b => entryLeb a b = true) idx := by
  have hperm := List.perm_insertionSort (fun a b => entryLeb a b = true) idx
  have hpw2 : List.Pairwise (fun (a b : IdxKey × Int) => a.1 ≠ b.1)
      (List.insertionSort (fun a b => entryLeb a b = true) idx) :=
    (List.Perm.pairwise_iff (fun {x y} hab => Ne.symm hab) hperm).2 hnd
  simp only [read_index, write_rows]
  rw [List.foldl_map]
  have hfun : (fun (ac : List (IdxKey × Int)) (kv : IdxKey × Int) =>
      readRow ac [kv.1.1, kv.1.2, intStr kv.2, now]) =
      fun ac kv => insertIdx ac kv.1 kv.2 := by
    funext ac kv
    exact readRow_write_row ac kv.1 kv.2 now
  rw [hfun]
  rw [foldl_insertIdx_append _ [] (by simp) hpw2]
  simp

theorem write_atomic_result (fs : FileMap) (idx : List (IdxKey × Int))
    (now : String) :
    write_index_atomic fs idx now STATE_CSV_P = some (write_rows idx now) := by
  simp [write_index_atomic, fupdate]

/-! ## Remaining helper lemmas -/

theorem processGroup_length (dry : Bool) (fails : String → Bool) (slug : String) :
    ∀ (files : List InFile) (st : StepState),
      (processGroup dry fails slug st files).2.length = files.length := by
  intro files
  induction files with
  | nil => intro st; rfl
  | cons f fs ih =>
    intro st
    have hstep : (processGroup dry fails slug st (f :: fs)).2 =
        (processFile dry fails slug st f).2 ::
          (processGroup dry fails slug ((processFile dry fails slug st f).1) fs).2 :=
      rfl
    rw [hstep, List.length_cons, ih]
    rfl

theorem chain_lt_le_of_getLast? {l : List Nat} (hch : l.Chain' (· < ·)) {y : Nat}
    (hy : l.getLast? = some y) : ∀ x ∈ l, x ≤ y := by
  intro x hx
  have hne : l ≠ [] := by rintro rfl; simp at hy
  have h1 := chain_lt_le_getLast l hch hne x hx
  rw [List.getLast?_eq_getLast_of_ne_nil hne] at hy
  rw [← Option.some.inj hy]
  exact h1

theorem le_of_maxStart_le {v : Int} {n : Nat}
    (h : (max 1 (v + 1)).toNat ≤ n) : v ≤ (n : Int) := by
  rcases le_total 1 (v + 1) with hle | hle
  · rw [max_eq_right hle] at h; omega
  · rw [max_eq_left hle] at h; omega

theorem goNext_gt_of_mem (taken : List String) (d e x : String) (i fuel : Nat)
    (hmem : mkName d e i x ∈ taken) : i < goNext taken d e x i (fuel + 1) := by
  simp only [goNext, if_pos hmem]
  have := goNext_ge taken d e x fuel (i + 1)
  omega

/-! ## Claim theorems -/

/-- Claim C1: within a single run, for every (event, year) key — i.e. for
every year group of the run's plan, the event slug being fixed — the
assigned increments form a strictly increasing sequence, and hence no value
repeats an earlier one for that key in the same run. -/
theorem run_increments_strictly_increase (w : World) (a : Args) :
    ∀ p ∈ (runMain w a).plans,
      ((p.2.map Assignment.inc).Chain' (· < ·))
      ∧ ((p.2.map Assignment.inc).Pairwise (· ≠ ·)) := by
  intro p hp
  have hch : (p.2.map Assignment.inc).Chain' (· < ·) := by
    cases hev : a.event with
    | none => simp [runMain, hev] at hp
    | some ev =>
      cases hin : w.inbox with
      | none => simp [runMain, hev, hin] at hp
      | some entries =>
        simp only [runMain, hev, hin] at hp
        by_cases hempty : (mainFiles entries).isEmpty = true
        · simp [hempty] at hp
        · simp only [hempty, if_false] at hp
          exact runYears_plans_chain _ _ _ _ _ _ _ _ p hp
  refine ⟨hch, ?_⟩
  have hpl := (List.chain'_iff_pairwise).1 hch
  exact hpl.imp (fun h => Nat.ne_of_lt h)

theorem run_increments_strictly_increase_witness :
    ((([(⟨"a.jpg", 1, "2024-01-01_trip_1.jpg"⟩ : Assignment),
        ⟨"b.jpg", 2, "2024-01-01_trip_2.jpg"⟩]).map Assignment.inc).Chain' (· < ·))
    ∧ ((([(⟨"a.jpg", 1, "2024-01-01_trip_1.jpg"⟩ : Assignment),
        ⟨"b.jpg", 2, "2024-01-01_trip_2.jpg"⟩]).map Assignment.inc).Pairwise (· ≠ ·)) :=
  run_increments_strictly_increase wTwoFiles ⟨some "trip", false⟩
    ("2024", [⟨"a.jpg", 1, "2024-01-01_trip_1.jpg"⟩,
              ⟨"b.jpg", 2, "2024-01-01_trip_2.jpg"⟩])
    (by decide)

/-- Claim C7: in dry-run mode the run changes nothing in the world: the
durable index file's contents and modification time are untouched and no
inbox file is renamed or moved; the run only computes (and prints) the
plan. -/
theorem dry_run_changes_nothing (w : World) (ev : Option String) :
    (runMain w ⟨ev, true⟩).world = w := by
  cases ev with
  | none => rfl
  | some e =>
    cases hin : w.inbox with
    | none => simp [runMain, hin]
    | some entries =>
      simp only [runMain, hin]
      by_cases hempty : (mainFiles entries).isEmpty = true
      · simp [hempty]
      · simp only [hempty, if_false, runYears_dry_inbox]
        obtain ⟨wi, wd, wif, wm, wdo, wrf, wns, wnt⟩ := w
        simp only at hin
        subst hin
        simp

/-- Claim C10: for an event slug containing an underscore,
`scan_max_existing` returns 0 whatever files exist, because the stem
pattern's event group is underscore-free and so never equals the query
slug; recovery for a key absent from the index therefore silently restarts
numbering at 1. -/
theorem underscore_event_scan_zero (fs : DirTree) (idx : List (IdxKey × Int))
    (event year : String) (h : '_' ∈ event.data) :
    scan_max_existing fs event year = 0
    ∧ (lookupIdx idx (event, year) = none →
        groupStart idx fs event year + 1 = 1) := by
  have h0 := scan_max_existing_underscore fs year h
  refine ⟨h0, fun hl => ?_⟩
  simp [groupStart, hl, h0]

theorem underscore_event_scan_zero_witness :
    scan_max_existing (fun _ => some [⟨"2024-03-01_my_trip_7.jpg", true⟩])
        "my_trip" "2024" = 0
    ∧ (lookupIdx [] ("my_trip", "2024") = none →
        groupStart [] (fun _ => some [⟨"2024-03-01_my_trip_7.jpg", true⟩])
          "my_trip" "2024" + 1 = 1) :=
  underscore_event_scan_zero (fun _ => some [⟨"2024-03-01_my_trip_7.jpg", true⟩])
    [] "my_trip" "2024" (by decide)

/-- Claim C4: `write_index_atomic` writes the serialized table to a
temporary file in the same directory as the index file and installs it over
the final path with one atomic replace (which also removes the temporary
name); any write failure before the replace leaves the previous index file
— and therefore anything a reader loads from it — exactly intact, so a
reader never observes a partially written table. -/
theorem write_index_atomic_spec :
    TMP_P.dir = STATE_CSV_P.dir
    ∧ (∀ (fs : FileMap) (written : List (List String)),
        write_index_atomic_failed fs written STATE_CSV_P = fs STATE_CSV_P)
    ∧ (∀ (fs : FileMap) (written : List (List String)),
        read_index (write_index_atomic_failed fs written STATE_CSV_P) =
          read_index (fs STATE_CSV_P))
    ∧ (∀ (fs : FileMap) (idx : List (IdxKey × Int)) (now : String),
        write_index_atomic fs idx now STATE_CSV_P = some (write_rows idx now))
    ∧ (∀ (fs : FileMap) (idx : List (IdxKey × Int)) (now : String),
        write_index_atomic fs idx now TMP_P = none) := by
  have hne : STATE_CSV_P ≠ TMP_P := by decide
  have hne2 : TMP_P ≠ STATE_CSV_P := by decide
  refine ⟨rfl, ?_, ?_, ?_, ?_⟩
  · intro fs written
    simp [write_index_atomic_failed, fupdate, hne]
  · intro fs written
    simp [write_index_atomic_failed, fupdate, hne]
  · intro fs idx now
    exact write_atomic_result fs idx now
  · intro fs idx now
    simp [write_index_atomic, fupdate, hne2]

/-- Claim C6: `scan_max_existing` considers exactly the immediate regular
files of the five candidate directories, keeps stems parsing with the
queried event and year, and returns the maximum such increment — it is an
upper bound on every matching increment, and is either 0 or itself attained
by a matching file; missing directories simply contribute nothing.  In
particular, with no index entry and `2024-03-01_trip_3.jpg` in the library
root, recovery returns 3 and a new allocation starts at 4. -/
theorem scan_max_existing_spec (fs : DirTree) (event year : String) :
    (∀ d ∈ candidateDirs event, ∀ entries, fs d = some entries →
      ∀ e ∈ entries, e.isFile = true →
      ∀ info, parse_stem (pstem e.name) = some info →
      info.event = event → takeStr 4 info.date = year →
      info.inc ≤ scan_max_existing fs event year)
    ∧ (scan_max_existing fs event year = 0 ∨
        ∃ d ∈ candidateDirs event, ∃ entries, fs d = some entries ∧
          ∃ e ∈ entries, ∃ info, e.isFile = true ∧
            parse_stem (pstem e.name) = some info ∧ info.event = event ∧
            takeStr 4 info.date = year ∧
            info.inc = scan_max_existing fs event year)
    ∧ (scan_max_existing fsLibTrip "trip" "2024" = 3
        ∧ groupStart [] fsLibTrip "trip" "2024" + 1 = 4) := by
  refine ⟨?_, ?_, by decide, by decide⟩
  · intro d hd entries hfs e he hf info hp hev hyr
    exact dirsFold_ub fs event year (candidateDirs event) 0 d entries e info
      hd hfs he hf hp hev hyr
  · exact dirsFold_attained fs event year (candidateDirs event) 0

theorem scan_max_existing_spec_witness :
    (3 : Nat) ≤ scan_max_existing fsLibTrip "trip" "2024" :=
  (scan_max_existing_spec fsLibTrip "trip" "2024").1 ["library", "trip"]
    (by decide) [⟨"2024-03-01_trip_3.jpg", true⟩] (by decide)
    ⟨"2024-03-01_trip_3.jpg", true⟩ (by decide) rfl
    ⟨"2024-03-01", "trip", 3⟩ (by decide) rfl (by decide)

theorem processFile_inc_eq (dry : Bool) (fails : String → Bool) (slug : String)
    (st : StepState) (f : InFile) :
    (processFile dry fails slug st f).2.inc =
      (next_free_name (st.inbox.map FSEntry.name) f.date slug st.nextInc
        (lowerStr (psuffix f.name))).1 := rfl

theorem processFile_target_eq (dry : Bool) (fails : String → Bool) (slug : String)
    (st : StepState) (f : InFile) :
    (processFile dry fails slug st f).2.target =
      (next_free_name (st.inbox.map FSEntry.name) f.date slug st.nextInc
        (lowerStr (psuffix f.name))).2 := rfl

/-- Claim C2: the first increment assigned for a key.  If the key is absent
from the index, the batch starts from the auto-heal scan: absent collisions
in the inbox, the first assigned increment is `scan_max_existing + 1`, and
in particular 1 when the scan finds nothing; if the key is present with a
(non-negative, per the data model) value `v`, the first assigned increment
is `v + 1`. -/
theorem first_increment_spec (idx : List (IdxKey × Int)) (dest : DirTree)
    (slug year : String) (inbox : List FSEntry) (f : InFile)
    (rest : List InFile) (dry : Bool) (fails : String → Bool) :
    (lookupIdx idx (slug, year) = none →
      mkName f.date slug (scan_max_existing dest slug year + 1)
          (lowerStr (psuffix f.name)) ∉ inbox.map FSEntry.name →
      ((processGroup dry fails slug ⟨inbox, groupStart idx dest slug year + 1⟩
          (f :: rest)).2.map Assignment.inc).head? =
        some (scan_max_existing dest slug year + 1))
    ∧ (lookupIdx idx (slug, year) = none →
      scan_max_existing dest slug year = 0 →
      mkName f.date slug 1 (lowerStr (psuffix f.name)) ∉ inbox.map FSEntry.name →
      ((processGroup dry fails slug ⟨inbox, groupStart idx dest slug year + 1⟩
          (f :: rest)).2.map Assignment.inc).head? = some 1)
    ∧ (∀ v : Int, lookupIdx idx (slug, year) = some v → 0 ≤ v →
      mkName f.date slug (v + 1).toNat (lowerStr (psuffix f.name)) ∉
          inbox.map FSEntry.name →
      ((processGroup dry fails slug ⟨inbox, groupStart idx dest slug year + 1⟩
          (f :: rest)).2.map Assignment.inc).head? = some (v + 1).toNat) := by
  have hhead : ((processGroup dry fails slug
      ⟨inbox, groupStart idx dest slug year + 1⟩ (f :: rest)).2.map
        Assignment.inc).head? =
      some ((next_free_name (inbox.map FSEntry.name) f.date slug
        (groupStart idx dest slug year + 1) (lowerStr (psuffix f.name))).1) := rfl
  refine ⟨?_, ?_, ?_⟩
  · intro hl hfree
    have hgs : groupStart idx dest slug year =
        ((scan_max_existing dest slug year : Nat) : Int) := by
      simp [groupStart, hl]
    rw [hhead, hgs]
    have hfree2 : mkName f.date slug
        (max 1 (((scan_max_existing dest slug year : Nat) : Int) + 1)).toNat
        (lowerStr (psuffix f.name)) ∉ inbox.map FSEntry.name := by
      rw [maxStart_succ]; exact hfree
    rw [next_free_name_of_free _ _ _ _ _ hfree2, maxStart_succ]
  · intro hl h0 hfree
    have hgs : groupStart idx dest slug year =
        ((scan_max_existing dest slug year : Nat) : Int) := by
      simp [groupStart, hl]
    rw [hhead, hgs, h0]
    have hfree2 : mkName f.date slug
        (max 1 (((0 : Nat) : Int) + 1)).toNat
        (lowerStr (psuffix f.name)) ∉ inbox.map FSEntry.name := by
      rw [maxStart_succ]; exact hfree
    rw [next_free_name_of_free _ _ _ _ _ hfree2, maxStart_succ]
  · intro v hl hv hfree
    have hgs : groupStart idx dest slug year = v := by
      simp [groupStart, hl]
    rw [hhead, hgs]
    have hmax : (max 1 (v + 1)).toNat = (v + 1).toNat := by
      rw [max_eq_right (by omega : (1 : Int) ≤ v + 1)]
    have hfree2 : mkName f.date slug (max 1 (v + 1)).toNat
        (lowerStr (psuffix f.name)) ∉ inbox.map FSEntry.name := by
      rw [hmax]; exact hfree
    rw [next_free_name_of_free _ _ _ _ _ hfree2, hmax]

theorem first_increment_spec_witness :
    (((processGroup false (fun _ => false) "trip"
        ⟨[], groupStart [] fsLibTrip "trip" "2024" + 1⟩
        [⟨"x.jpg", "2024-05-05"⟩]).2.map Assignment.inc).head? =
      some (scan_max_existing fsLibTrip "trip" "2024" + 1))
    ∧ (((processGroup false (fun _ => false) "trip"
        ⟨[], groupStart [] (fun _ => none) "trip" "2024" + 1⟩
        [⟨"x.jpg", "2024-05-05"⟩]).2.map Assignment.inc).head? = some 1)
    ∧ (((processGroup false (fun _ => false) "trip"
        ⟨[], groupStart [(("trip", "2024"), 5)] (fun _ => none) "trip" "2024" + 1⟩
        [⟨"x.jpg", "2024-05-05"⟩]).2.map Assignment.inc).head? =
      some ((5 : Int) + 1).toNat) :=
  ⟨(first_increment_spec [] fsLibTrip "trip" "2024" [] ⟨"x.jpg", "2024-05-05"⟩
      [] false (fun _ => false)).1 rfl (by decide),
   (first_increment_spec [] (fun _ => none) "trip" "2024" []
      ⟨"x.jpg", "2024-05-05"⟩ [] false (fun _ => false)).2.1 rfl (by decide)
      (by decide),
   (first_increment_spec [(("trip", "2024"), 5)] (fun _ => none) "trip" "2024"
      [] ⟨"x.jpg", "2024-05-05"⟩ [] false (fun _ => false)).2.2 5 (by decide)
      (by decide) (by decide)⟩

/-- Claim C5: after a year group is processed, `next_inc - 1` — the value
stored back into the in-memory index for (event, year) — equals the highest
increment assigned in the group (every assignment counts, including those
whose physical rename failed: the oracle `fails` does not appear in the
assigned increments at all), and it is never lower than the value the entry
had before the batch. -/
theorem index_entry_after_group (dry : Bool) (fails : String → Bool)
    (slug year : String) (dest : DirTree) (idx : List (IdxKey × Int))
    (inbox : List FSEntry) (group : List InFile) :
    (group ≠ [] →
      (∃ y ∈ (processGroup dry fails slug
          ⟨inbox, groupStart idx dest slug year + 1⟩ group).2,
        (y.inc : Int) = (processGroup dry fails slug
          ⟨inbox, groupStart idx dest slug year + 1⟩ group).1.nextInc - 1)
      ∧ (∀ x ∈ (processGroup dry fails slug
          ⟨inbox, groupStart idx dest slug year + 1⟩ group).2,
        (x.inc : Int) ≤ (processGroup dry fails slug
          ⟨inbox, groupStart idx dest slug year + 1⟩ group).1.nextInc - 1))
    ∧ (∀ v : Int, lookupIdx idx (slug, year) = some v →
        v ≤ (processGroup dry fails slug
          ⟨inbox, groupStart idx dest slug year + 1⟩ group).1.nextInc - 1)
    ∧ lookupIdx (insertIdx idx (slug, year)
        ((processGroup dry fails slug
          ⟨inbox, groupStart idx dest slug year + 1⟩ group).1.nextInc - 1))
        (slug, year) =
      some ((processGroup dry fails slug
        ⟨inbox, groupStart idx dest slug year + 1⟩ group).1.nextInc - 1) := by
  obtain ⟨hch, hge, hlast⟩ := processGroup_spec dry fails slug group
    ⟨inbox, groupStart idx dest slug year + 1⟩
  refine ⟨?_, ?_, lookupIdx_insertIdx_self idx (slug, year) _⟩
  · intro hne
    have hlen : (processGroup dry fails slug
        ⟨inbox, groupStart idx dest slug year + 1⟩ group).2.length =
        group.length := processGroup_length dry fails slug group _
    have hne2 : (processGroup dry fails slug
        ⟨inbox, groupStart idx dest slug year + 1⟩ group).2 ≠ [] := by
      intro h0
      rw [h0] at hlen
      exact hne (List.eq_nil_of_length_eq_zero hlen.symm)
    have hy := List.getLast?_eq_getLast_of_ne_nil hne2
    set y := (processGroup dry fails slug
      ⟨inbox, groupStart idx dest slug year + 1⟩ group).2.getLast hne2 with hydef
    rw [hy] at hlast
    dsimp only at hlast
    constructor
    · exact ⟨y, List.getLast_mem hne2,
        by rw [hlast]; exact (add_sub_cancel_right _ _).symm⟩
    · intro x hx
      have hxin : x.inc ∈ (processGroup dry fails slug
          ⟨inbox, groupStart idx dest slug year + 1⟩ group).2.map Assignment.inc :=
        List.mem_map_of_mem Assignment.inc hx
      have hylast : ((processGroup dry fails slug
          ⟨inbox, groupStart idx dest slug year + 1⟩ group).2.map
            Assignment.inc).getLast? = some y.inc := by
        rw [List.getLast?_map, hy]
        rfl
      have := chain_lt_le_of_getLast? hch hylast x.inc hxin
      rw [hlast, add_sub_cancel_right]
      exact_mod_cast this
  · intro v hv
    have hgs : groupStart idx dest slug year = v := by simp [groupStart, hv]
    rw [hgs] at hge hlast
    cases hg : (processGroup dry fails slug ⟨inbox, v + 1⟩ group).2 with
    | nil =>
      rw [hg] at hlast
      simp only [List.getLast?_nil] at hlast
      rw [hgs, hlast, add_sub_cancel_right]
    | cons b t =>
      rw [hg] at hlast
      cases hy : (b :: t).getLast? with
      | none => simp at hy
      | some y =>
        rw [hy] at hlast
        dsimp only at hlast
        have hymem : y ∈ b :: t := by
          have := List.mem_getLast?_eq_getLast (show y ∈ (b :: t).getLast? by
            rw [hy]; rfl)
          rcases this with ⟨h1, h2⟩
          rw [h2]
          exact List.getLast_mem h1
        have hyge : (max 1 (v + 1)).toNat ≤ y.inc := by
          apply hge
          rw [hg]
          exact hymem
        have := le_of_maxStart_le hyge
        rw [hgs, hlast, add_sub_cancel_right]
        exact this

theorem index_entry_after_group_witness :
    (5 : Int) ≤ (processGroup false (fun _ => false) "trip"
        ⟨[], groupStart [(("trip", "2024"), 5)] (fun _ => none) "trip" "2024" + 1⟩
        [⟨"a.jpg", "2024-06-01"⟩]).1.nextInc - 1 :=
  (index_entry_after_group false (fun _ => false) "trip" "2024" (fun _ => none)
    [(("trip", "2024"), 5)] [] [⟨"a.jpg", "2024-06-01"⟩]).2.1 5 (by decide)

/-- Claim C8: the target path the executor computes for a file never exists
in the inbox — the rename's write target — at the moment the rename is
performed (the probe and the rename happen against the same listing within
one loop iteration), so no existing file is ever overwritten; and when the
initially computed name (the one built from `max(1, next_inc)`) is taken,
the executor deterministically produces a distinct name with a strictly
larger increment. -/
theorem rename_never_overwrites (dry : Bool) (fails : String → Bool)
    (slug : String) (st : StepState) (f : InFile) :
    ((processFile dry fails slug st f).2.target ∉ st.inbox.map FSEntry.name)
    ∧ (mkName f.date slug (max 1 st.nextInc).toNat (lowerStr (psuffix f.name))
          ∈ st.inbox.map FSEntry.name →
        (processFile dry fails slug st f).2.target ≠
          mkName f.date slug (max 1 st.nextInc).toNat (lowerStr (psuffix f.name))
        ∧ (max 1 st.nextInc).toNat < (processFile dry fails slug st f).2.inc) := by
  have hfree : (processFile dry fails slug st f).2.target ∉
      st.inbox.map FSEntry.name := by
    rw [processFile_target_eq]
    exact next_free_name_free _ _ _ _ _
  refine ⟨hfree, fun hmem => ⟨?_, ?_⟩⟩
  · intro he
    rw [he] at hfree
    exact hfree hmem
  · rw [processFile_inc_eq]
    exact goNext_gt_of_mem _ _ _ _ _ _ hmem

theorem rename_never_overwrites_witness :
    ((processFile false (fun _ => false) "trip"
        ⟨[⟨"2024-01-01_trip_1.jpg", true⟩], 1⟩ ⟨"x.jpg", "2024-01-01"⟩).2.target ≠
      mkName "2024-01-01" "trip" (max 1 (1 : Int)).toNat (lowerStr (psuffix "x.jpg")))
    ∧ ((max 1 (1 : Int)).toNat < (processFile false (fun _ => false) "trip"
        ⟨[⟨"2024-01-01_trip_1.jpg", true⟩], 1⟩ ⟨"x.jpg", "2024-01-01"⟩).2.inc) :=
  (rename_never_overwrites false (fun _ => false) "trip"
    ⟨[⟨"2024-01-01_trip_1.jpg", true⟩], 1⟩ ⟨"x.jpg", "2024-01-01"⟩).2 (by decide)

/-- Claim C3: committing an in-memory mapping with `write_index_atomic` and
then loading the resulting file with `read_index` reproduces exactly the
committed mapping (as a mapping: the two lookups agree on every key; the
association list is merely reordered into the writer's sorted order). -/
theorem commit_load_roundtrip (fs : FileMap) (idx : List (IdxKey × Int))
    (now : String) (hnd : List.Pairwise (fun a b => a.1 ≠ b.1) idx) :
    ∀ k, lookupIdx (read_index (write_index_atomic fs idx now STATE_CSV_P)) k =
      lookupIdx idx k := by
  intro k
  rw [write_atomic_result, read_index_write_rows idx now hnd]
  have hperm := List.perm_insertionSort (fun a b => entryLeb a b = true) idx
  have hpw2 := (List.Perm.pairwise_iff (fun {x y} hab => Ne.symm hab) hperm).2 hnd
  exact lookupIdx_eq_of_perm hperm hpw2 k

theorem commit_load_roundtrip_witness :
    lookupIdx (read_index (write_index_atomic (fun _ => none)
        [(("trip", "2024"), 5), (("z", "2020"), -3)] "T" STATE_CSV_P))
      ("trip", "2024") =
    lookupIdx [(("trip", "2024"), 5), (("z", "2020"), -3)] ("trip", "2024") :=
  commit_load_roundtrip (fun _ => none)
    [(("trip", "2024"), 5), (("z", "2020"), -3)] "T" (by decide) ("trip", "2024")

/-- Claim C9 counterexample: the claim says the "no work found" outcome
(empty inbox) exits with a non-success status different from a successful
run's status; in fact an empty inbox makes `main` print an informational
message and return normally, exit status 0 — exactly the status of a
successful run that renamed files. -/
theorem exit_status_counterexample :
    (runMain wEmptyInbox ⟨some "trip", false⟩).exitCode = 0
    ∧ (runMain wTwoFiles ⟨some "trip", false⟩).exitCode = 0
    ∧ (runMain wTwoFiles ⟨some "trip", false⟩).plans ≠ []
    ∧ (runMain wEmptyInbox ⟨some "trip", false⟩).exitCode =
        (runMain wTwoFiles ⟨some "trip", false⟩).exitCode := by
  refine ⟨by decide, by decide, by decide, by decide⟩

/-- Claim C9 amended: a missing `--event` argument and a missing inbox
directory terminate with exit status 2 — nonzero and distinct from the
successful run's status 0 — and mutate no state; an empty inbox terminates
with exit status 0, the same status as a successful run (distinguished only
by its output), also with no state mutation. -/
theorem exit_status_spec (w : World) (a : Args) :
    (a.event = none → runMain w a = ⟨w, 2, []⟩)
    ∧ (∀ ev, a.event = some ev → w.inbox = none → runMain w a = ⟨w, 2, []⟩)
    ∧ (∀ ev entries, a.event = some ev → w.inbox = some entries →
        (mainFiles entries).isEmpty = true → runMain w a = ⟨w, 0, []⟩)
    ∧ (2 : Nat) ≠ 0 := by
  refine ⟨?_, ?_, ?_, by decide⟩
  · intro h
    simp [runMain, h]
  · intro ev h1 h2
    simp [runMain, h1, h2]
  · intro ev entries h1 h2 h3
    simp [runMain, h1, h2, h3]

theorem exit_status_spec_witness :
    runMain wTwoFiles ⟨none, false⟩ = ⟨wTwoFiles, 2, []⟩
    ∧ runMain wNoInbox ⟨some "trip", false⟩ = ⟨wNoInbox, 2, []⟩
    ∧ runMain wEmptyInbox ⟨some "trip", false⟩ = ⟨wEmptyInbox, 0, []⟩ :=
  ⟨(exit_status_spec wTwoFiles ⟨none, false⟩).1 rfl,
   (exit_status_spec wNoInbox ⟨some "trip", false⟩).2.1 "trip" rfl rfl,
   (exit_status_spec wEmptyInbox ⟨some "trip", false⟩).2.2.1 "trip" [] rfl rfl
     (by decide)⟩
